import Mathlib

/-!
Verification of the category-consolidation and destination-resolution engine
of the SmartFileOrganizer (file_organizer.py).

The external collaborators (classification service, naming service, the
filesystem mover) are modelled as oracles passed in as functions; everything
else is translated directly from the Python source:

* `analyze_filename`  — per-file classification with `"Misc"` fallback;
* `merge_categories`  — keyword-similarity clustering of raw categories;
* `get_merged_category_name` — naming of a merged cluster with fallback;
* `organize_files`    — the orchestrator: resolve destinations, move files,
  accumulate `processed`/`moved`/`errors` statistics.

Python's `ZeroDivisionError` (the unguarded `len(∩)/len(∪)` at line 106) is
modelled by returning `none` from the similarity computation, which
propagates: a raised exception aborts `merge_categories` and hence the run.
-/

namespace FileOrganizer

/-- Characters stripped by the sanitization regex in the source
(the character class in the regular expression at lines 75, 76 and 145). -/
def illegalChars : List Char := ['<', '>', ':', '"', '/', '\\', '|', '?', '*']

/-- Strip filesystem-hostile characters, as the regex substitution does. -/
def sanitize (s : String) : String :=
  ⟨s.data.filter (fun c => !(illegalChars.contains c))⟩

/-- Python `str.strip()`: drop leading and trailing whitespace. -/
def pyStrip (s : String) : String :=
  ⟨((s.data.dropWhile Char.isWhitespace).reverse.dropWhile
      Char.isWhitespace).reverse⟩

/-- Python `str.split(",")`, accumulator form. -/
def splitCommaAux : List Char → List Char → List String
  | [], acc => [⟨acc.reverse⟩]
  | c :: rest, acc =>
    if c = ',' then ⟨acc.reverse⟩ :: splitCommaAux rest []
    else splitCommaAux rest (c :: acc)

/-- Python `str.split(",")`: split on every comma. -/
def splitComma (s : String) : List String := splitCommaAux s.data []

/-- A dot position in a filename that yields an extension split:
the character is a dot and some earlier character is not a dot
(so that Python's `os.path.splitext` does not split a leading-dot name). -/
def goodDot (cs : List Char) (i : Nat) : Bool :=
  (cs.getD i ' ' == '.') && ((List.range i).any (fun j => cs.getD j ' ' != '.'))

/-- Model of `os.path.splitext` on a basename (the inputs here never hold a
path separator): split at the last dot that has a non-dot character before
it; otherwise keep the whole name as the stem with an empty extension. -/
def splitext (s : String) : String × String :=
  match ((List.range s.data.length).filter (goodDot s.data)).getLast? with
  | none => (s, "")
  | some i => (⟨s.data.take i⟩, ⟨s.data.drop i⟩)

/-- The regex capture groups scraped from one classification response
(line 66-68): the text after `CATEGORY:`, `KEYWORDS:` and `NEWNAME:`,
each `none` when its pattern did not match. -/
structure LLMParse where
  cat : Option String
  kws : Option String
  nam : Option String
deriving DecidableEq

/-- `analyze_filename` (lines 28-82).  The classification collaborator is an
oracle: `none` models any exception in the try-block (timeout, transport
error, bad status, malformed JSON), `some p` models a successful call with
the regex capture results `p`.  On failure the source returns
`("Misc", filename, [])` (line 82). -/
def analyze_filename (filename : String) (llm : Option LLMParse) :
    String × String × List String :=
  let name := (splitext filename).1
  let ext := (splitext filename).2
  match llm with
  | none => ("Misc", filename, [])
  | some p =>
    let category := match p.cat with
      | some s => pyStrip s
      | none => "Misc"
    let keywords := match p.kws with
      | some s => (splitComma s).map pyStrip
      | none => []
    let newName := match p.nam with
      | some s => pyStrip s
      | none => name
    (sanitize category, sanitize newName ++ ext, keywords)

/-- One ClassificationRecord: an element of `all_file_data`
(`(file_path, category, new_name, keywords)`, line 165). -/
structure FileRec where
  path : String
  category : String
  newName : String
  keywords : List String
deriving DecidableEq

/-- The record-collection loop of `organize_files` (lines 162-166):
analyze every discovered file.  `cls` is the classification oracle,
indexed by filename. -/
def collectRecords (cls : String → Option LLMParse) (files : List String) :
    List FileRec :=
  files.map (fun f =>
    let r := analyze_filename f (cls f)
    ⟨f, r.1, r.2.1, r.2.2⟩)

/-- Insert keywords into the profile map, preserving first-seen key order
(Python `defaultdict(set)` insertion-order semantics, line 90-92). -/
def updateProfile : List (String × Finset String) → String → Finset String →
    List (String × Finset String)
  | [], c, ks => [(c, ks)]
  | (c', ks') :: rest, c, ks =>
    if c' = c then (c', ks' ∪ ks) :: rest
    else (c', ks') :: updateProfile rest c ks

/-- `category_keywords` (lines 90-92): for each raw category, in first-seen
order, the union of the keywords of its records. -/
def buildProfiles (fd : List FileRec) : List (String × Finset String) :=
  fd.foldl (fun acc r => updateProfile acc r.category r.keywords.toFinset) []

/-- The quotient `len(keywords1 ∩ keywords2) / len(keywords1 ∪ keywords2)`
(line 106), as an exact rational (`simFrac_eq_div` below rewrites it in
division form). -/
def simFrac (k1 k2 : Finset String) : ℚ :=
  mkRat ((k1 ∩ k2).card) ((k1 ∪ k2).card)

/-- The merge threshold `0.3` of line 107, as the exact rational `3/10`
(`simThreshold_eq_div` below). -/
def simThreshold : ℚ := mkRat 3 10

/-- The similarity test of line 106-107.  `none` models the
`ZeroDivisionError` Python raises when the union is empty; otherwise the
result tells whether `similarity > 0.3`. -/
def simOk (k1 k2 : Finset String) : Option Bool :=
  if (k1 ∪ k2).card = 0 then none
  else some (decide (simThreshold < simFrac k1 k2))

/-- One step of the inner loop of `merge_categories` (lines 103-108):
skip `cat2` when it equals the seed or is already processed, otherwise
compute the similarity (possibly raising) and append `cat2` when it
exceeds the threshold. -/
def simStep (cat1 : String) (k1 : Finset String) (processed : List String)
    (acc : List String) (p : String × Finset String) : Option (List String) :=
  if p.1 ≠ cat1 ∧ p.1 ∉ processed then
    match simOk k1 p.2 with
    | none => none
    | some b => some (if b then acc ++ [p.1] else acc)
  else some acc

/-- `similar_cats` for a seed category (lines 102-108): the seed followed by
every distinct unprocessed category whose similarity with the seed exceeds
the threshold, in profile order.  `none` when a similarity computation
raises. -/
def pickSimilar (profiles : List (String × Finset String))
    (processed : List String) (cat1 : String) (k1 : Finset String) :
    Option (List String) :=
  List.foldlM (simStep cat1 k1 processed) [cat1] profiles

/-- One step of the outer loop of `merge_categories`, keeping only the
clustering part (lines 98-113): state is the processed list and the
clusters formed so far. -/
def clustersStep (profiles : List (String × Finset String))
    (st : List String × List (List String)) (p : String × Finset String) :
    Option (List String × List (List String)) :=
  if p.1 ∈ st.1 then some st
  else
    match pickSimilar profiles st.1 p.1 p.2 with
    | none => none
    | some sim => some (st.1 ++ sim, st.2 ++ [sim])

/-- The sequence of clusters (`similar_cats` lists) formed by
`merge_categories`, in formation order; `none` when the similarity
computation raises. -/
def buildClusters (profiles : List (String × Finset String)) :
    Option (List (List String)) :=
  (List.foldlM (clustersStep profiles) ([], []) profiles).map (fun st => st.2)

/-- `get_merged_category_name` (lines 120-148).  The naming collaborator is
an oracle: `none` models any exception in the try-block, `some s` a reply
with content `s`.  A single-member cluster keeps its name (line 122-123);
otherwise the reply is stripped and sanitized (line 144-145), and on failure
the first member is returned (line 148).  The source would raise an
`IndexError` on an empty input list, but every caller passes a nonempty
cluster, so the `[]` case is unreachable. -/
def get_merged_category_name (namer : List String → Option String)
    (cats : List String) : String :=
  if cats.length = 1 then cats.headD ""
  else
    match namer cats with
    | some s => sanitize (pyStrip s)
    | none => cats.headD ""

/-- Append values under a key of an insertion-ordered dictionary of lists
(`defaultdict(list)` semantics of `merged_categories`, line 95 and 116). -/
def dictAppend {α : Type} : List (String × List α) → String → List α →
    List (String × List α)
  | [], k, vs => [(k, vs)]
  | (k', vs') :: rest, k, vs =>
    if k' = k then (k', vs' ++ vs) :: rest
    else (k', vs') :: dictAppend rest k vs

/-- The `(file_path, new_name)` pairs of the records whose category is
`cat`, in record order (lines 114-116). -/
def collectMembers (fd : List FileRec) (cat : String) :
    List (String × String) :=
  (fd.filter (fun r => r.category = cat)).map (fun r => (r.path, r.newName))

/-- One step of the outer loop of `merge_categories` (lines 98-116), full
version: form `similar_cats`, name the cluster, mark its members processed
and append their files under the merged name. -/
def mergeStep (namer : List String → Option String) (fd : List FileRec)
    (profiles : List (String × Finset String))
    (st : List String × List (String × List (String × String)))
    (p : String × Finset String) :
    Option (List String × List (String × List (String × String))) :=
  if p.1 ∈ st.1 then some st
  else
    match pickSimilar profiles st.1 p.1 p.2 with
    | none => none
    | some sim =>
      let nm := get_merged_category_name namer sim
      some (st.1 ++ sim, dictAppend st.2 nm (sim.flatMap (collectMembers fd)))

/-- `merge_categories` (lines 84-118): the insertion-ordered dictionary from
merged category name to the `(source_path, new_name)` pairs of its files.
`none` models the `ZeroDivisionError` escaping the function. -/
def merge_categories (namer : List String → Option String)
    (fd : List FileRec) :
    Option (List (String × List (String × String))) :=
  let profiles := buildProfiles fd
  (List.foldlM (mergeStep namer fd profiles) ([], []) profiles).map
    (fun st => st.2)

/-- The candidate filename `f"{stem}_{counter}{ext}"` of line 187. -/
def mkCand (stem ext : String) (c : Nat) : String :=
  stem ++ "_" ++ toString c ++ ext

/-- The `while new_file_path.exists()` loop of lines 184-188, fuelled.
The filesystem is the list of `(folder, name)` entries existing in the
target tree; the fuel passed by `resolveName` is always sufficient, so the
zero-fuel branch is unreachable. -/
def resolveLoop (fs : List (String × String)) (folder stem ext : String) :
    Nat → Nat → String
  | 0, c => mkCand stem ext c
  | fuel + 1, c =>
    let cand := mkCand stem ext c
    if (folder, cand) ∈ fs then resolveLoop fs folder stem ext fuel (c + 1)
    else cand

/-- Destination resolution for one member (lines 181-188): keep the
suggested name when free, otherwise append `_1`, `_2`, … until the
candidate does not exist. -/
def resolveName (fs : List (String × String)) (folder name : String) :
    String :=
  if (folder, name) ∈ fs then
    resolveLoop fs folder (splitext name).1 (splitext name).2
      (fs.length + 1) 1
  else name

/-- The `{"processed": …, "moved": …, "errors": …}` statistics
dictionary (line 154). -/
structure Stats where
  processed : Nat
  moved : Nat
  errors : Nat
deriving DecidableEq

/-- State threaded through the move loop of `organize_files`: the target
filesystem entries, the statistics, and the `(category, resolved name)`
decisions produced so far. -/
structure OrgState where
  fs : List (String × String)
  stats : Stats
  ds : List (String × String)
deriving DecidableEq

/-- Lines 179-199 for a single member of a group: resolve the destination,
then — outside a dry run — either move the file (prepending the new entry
to the filesystem and counting `moved`) or fail (counting `errors`).
`moveOk` is the mover oracle, indexed by source path.  The
`(category, resolved name)` decision is recorded at resolution time, before
the move attempt: the resolution at lines 181-188 completes before
`shutil.move` can raise, so the decision exists even when the move then
fails (the console line at 194-195 is printed only on success, but it
reports the already-computed decision). -/
def processFile (dryRun : Bool) (moveOk : String → Bool) (folder : String)
    (st : OrgState) (m : String × String) : OrgState :=
  let resolved := resolveName st.fs folder m.2
  let ds' := st.ds ++ [(folder, resolved)]
  if dryRun then ⟨st.fs, st.stats, ds'⟩
  else if moveOk m.1 then
    ⟨(folder, resolved) :: st.fs,
     ⟨st.stats.processed, st.stats.moved + 1, st.stats.errors⟩, ds'⟩
  else
    ⟨st.fs, ⟨st.stats.processed, st.stats.moved, st.stats.errors + 1⟩, ds'⟩

/-- Lines 179-199 for one merged group: process its members in order. -/
def processGroup (dryRun : Bool) (moveOk : String → Bool) (st : OrgState)
    (g : String × List (String × String)) : OrgState :=
  g.2.foldl (processFile dryRun moveOk g.1) st

/-- `organize_files` (lines 150-201).  Inputs: the dry-run flag, the
classification oracle, the naming oracle, the mover oracle, the
pre-existing target-tree entries, and the discovered source files (the
traversal and exclusion filtering are delegated).  Output: the decision
sequence and the statistics, or `none` when the consolidation step raises
(which aborts the run).  `processed` counts every discovered file
(line 166). -/
def organize_files (dryRun : Bool) (cls : String → Option LLMParse)
    (namer : List String → Option String) (moveOk : String → Bool)
    (fs0 : List (String × String)) (files : List String) :
    Option (List (String × String) × Stats) :=
  let fd := collectRecords cls files
  match merge_categories namer fd with
  | none => none
  | some d =>
    let r := d.foldl (processGroup dryRun moveOk)
      ⟨fs0, ⟨files.length, 0, 0⟩, []⟩
    some (r.ds, r.stats)

/-- Value of a decimal digit character (proof-support definition). -/
def chVal (c : Char) : Nat := c.toNat - 48

/-- Left-to-right decimal evaluation of a character list, with accumulator. -/
def valOfAux (a : Nat) (l : List Char) : Nat :=
  l.foldl (fun a c => a * 10 + chVal c) a

/-- Decimal evaluation of a character list. -/
def valOf (l : List Char) : Nat := valOfAux 0 l

/-- The Boolean filter equivalent to the inner similarity loop's
guard-and-test (used to characterize `pickSimilar`). -/
def simPick (cat1 : String) (k1 : Finset String) (processed : List String)
    (q : String × Finset String) : Bool :=
  decide (q.1 ≠ cat1 ∧ q.1 ∉ processed) && (simOk k1 q.2 == some true)

/-- Lookup in an insertion-ordered dictionary (first matching key). -/
def dictGet {α : Type} : List (String × List α) → String → List α
  | [], _ => []
  | e :: rest, k => if e.1 = k then e.2 else dictGet rest k

/-- The dictionary obtained by naming each cluster in order and appending
its member files under the name. -/
def groupDict (namer : List String → Option String) (fd : List FileRec)
    (cs : List (List String)) : List (String × List (String × String)) :=
  cs.foldl (fun acc c =>
    dictAppend acc (get_merged_category_name namer c)
      (c.flatMap (collectMembers fd))) []

/-- Jaccard similarity as the spec defines it: `0` when the union is empty,
never a fault (spec section 4.1 step 1 and the glossary).  Spec-side
definition, to be compared against the code's `simOk`. -/
def jaccardSpec (k1 k2 : Finset String) : ℚ :=
  if (k1 ∪ k2).card = 0 then 0 else simFrac k1 k2

/-- One step of the clustering procedure as the spec words it (section 4.1
steps 2-3): for the next unprocessed category `C`, the cluster is `C`
together with every unprocessed category whose similarity with `C` exceeds
`0.30`; the whole cluster is then marked processed. -/
def specStep (profiles : List (String × Finset String))
    (st : Finset String × List (Finset String)) (p : String × Finset String) :
    Finset String × List (Finset String) :=
  if p.1 ∈ st.1 then st
  else
    let cl := insert p.1
      (((profiles.filter (fun q =>
          decide (q.1 ∉ st.1 ∧ simThreshold < jaccardSpec p.2 q.2))).map
        Prod.fst).toFinset)
    (st.1 ∪ cl, st.2 ++ [cl])

/-- Modelled from the spec (section 4.1): single-pass seed-neighborhood
clustering over the first-seen-ordered profiles. -/
def specClusters (profiles : List (String × Finset String)) :
    List (Finset String) :=
  (profiles.foldl (specStep profiles) (∅, [])).2

/-- Invariant of the move loop: the decisions so far are duplicate-free, and
every decision is recorded in the filesystem (because its move succeeded). -/
def goodState (st : OrgState) : Prop :=
  st.ds.Nodup ∧ ∀ x ∈ st.ds, x ∈ st.fs

end FileOrganizer

namespace FileOrganizer

/-! ### Injectivity of the decimal counter suffix

The collision loop builds candidates `stem_1`, `stem_2`, …; distinct
counters give distinct strings because the decimal representation of a
natural number is injective.  We prove that by evaluating the digit string
back to a number. -/

theorem valOf_cons (c : Char) (t : List Char) :
    valOf (c :: t) = valOfAux (chVal c) t := by
  simp [valOf, valOfAux]

theorem valOfAux_eq (l : List Char) :
    ∀ a, valOfAux a l = a * 10 ^ l.length + valOf l := by
  induction l with
  | nil => intro a; simp [valOfAux, valOf]
  | cons c t ih =>
    intro a
    have h1 : valOfAux a (c :: t) = valOfAux (a * 10 + chVal c) t := rfl
    rw [h1, ih, valOf_cons, ih (chVal c)]
    simp [List.length_cons, pow_succ]
    ring

theorem digitChar_val : ∀ d : Nat, d < 10 → chVal (Nat.digitChar d) = d := by
  decide

theorem toDigitsCore_val :
    ∀ (fuel n : Nat) (acc : List Char), n < 10 ^ fuel →
      valOf (Nat.toDigitsCore 10 fuel n acc) = n * 10 ^ acc.length + valOf acc := by
  intro fuel
  induction fuel with
  | zero =>
    intro n acc h
    interval_cases n
    simp [Nat.toDigitsCore]
  | succ fuel ih =>
    intro n acc h
    have hunf : Nat.toDigitsCore 10 (fuel + 1) n acc =
        (if n / 10 = 0 then Nat.digitChar (n % 10) :: acc
         else Nat.toDigitsCore 10 fuel (n / 10) (Nat.digitChar (n % 10) :: acc)) := by
      simp [Nat.toDigitsCore]
    rw [hunf]
    by_cases hdiv : n / 10 = 0
    · simp only [hdiv, if_true]
      have hn10 : n < 10 := by omega
      have hmod : n % 10 = n := Nat.mod_eq_of_lt hn10
      rw [valOf_cons, valOfAux_eq, digitChar_val _ (Nat.mod_lt n (by omega)), hmod]
    · simp only [hdiv, if_false]
      have hlt : n / 10 < 10 ^ fuel := by
        rw [Nat.div_lt_iff_lt_mul (by omega)]
        calc n < 10 ^ (fuel + 1) := h
        _ = 10 ^ fuel * 10 := by rw [pow_succ]
      rw [ih (n / 10) (Nat.digitChar (n % 10) :: acc) hlt]
      rw [valOf_cons, valOfAux_eq, digitChar_val _ (Nat.mod_lt n (by omega))]
      have hnm : n * 10 ^ acc.length =
          (10 * (n / 10) + n % 10) * 10 ^ acc.length := by
        rw [Nat.div_add_mod n 10]
      rw [hnm]
      simp only [List.length_cons, pow_succ]
      ring

theorem valOf_repr (n : Nat) : valOf (Nat.repr n).data = n := by
  have hdata : (Nat.repr n).data = Nat.toDigitsCore 10 (n + 1) n [] := rfl
  have hlt : n < 10 ^ (n + 1) := by
    calc n < 2 ^ n := Nat.lt_two_pow n
    _ ≤ 10 ^ n := Nat.pow_le_pow_left (by omega) n
    _ ≤ 10 ^ (n + 1) := Nat.pow_le_pow_right (by omega) (Nat.le_succ n)
  rw [hdata, toDigitsCore_val (n + 1) n [] hlt]
  simp [valOf, valOfAux]

theorem natRepr_inj {m n : Nat} (h : Nat.repr m = Nat.repr n) : m = n := by
  have := congrArg (fun s => valOf s.data) h
  simpa [valOf_repr] using this

theorem mkCand_inj (stem ext : String) {c1 c2 : Nat}
    (h : mkCand stem ext c1 = mkCand stem ext c2) : c1 = c2 := by
  have hdata : (mkCand stem ext c1).data = (mkCand stem ext c2).data := by
    rw [h]
  simp only [mkCand, String.data_append, List.append_assoc] at hdata
  have h1 := List.append_cancel_left hdata
  have h2 := List.append_cancel_left h1
  have h3 := List.append_cancel_right h2
  have hstr : toString c1 = toString c2 := by
    have : (toString c1).data = (toString c2).data := h3
    cases hs1 : toString c1 with
    | mk d1 =>
      cases hs2 : toString c2 with
      | mk d2 =>
        rw [hs1, hs2] at this
        simp only at this
        exact congrArg String.mk this
  exact natRepr_inj hstr

/-! ### Specification of the collision-resolution loop -/

theorem resolveLoop_spec (fs : List (String × String)) (folder stem ext : String) :
    ∀ (fuel c : Nat),
      (∃ i, i < fuel ∧ (folder, mkCand stem ext (c + i)) ∉ fs) →
      ∃ j, j < fuel ∧
        resolveLoop fs folder stem ext fuel c = mkCand stem ext (c + j) ∧
        (folder, mkCand stem ext (c + j)) ∉ fs ∧
        ∀ i, i < j → (folder, mkCand stem ext (c + i)) ∈ fs := by
  intro fuel
  induction fuel with
  | zero =>
    intro c h
    obtain ⟨i, hi, _⟩ := h
    omega
  | succ fuel ih =>
    intro c h
    by_cases hmem : (folder, mkCand stem ext c) ∈ fs
    · have hstep : resolveLoop fs folder stem ext (fuel + 1) c =
          resolveLoop fs folder stem ext fuel (c + 1) := by
        simp [resolveLoop, hmem]
      obtain ⟨i, hi, hfree⟩ := h
      have hipos : i ≠ 0 := by
        intro h0
        rw [h0, Nat.add_zero] at hfree
        exact hfree hmem
      have hex : ∃ i', i' < fuel ∧ (folder, mkCand stem ext (c + 1 + i')) ∉ fs := by
        refine ⟨i - 1, by omega, ?_⟩
        have : c + 1 + (i - 1) = c + i := by omega
        rw [this]
        exact hfree
      obtain ⟨j, hj, heq, hfr, hall⟩ := ih (c + 1) hex
      refine ⟨j + 1, by omega, ?_, ?_, ?_⟩
      · rw [hstep, heq]
        congr 1
        omega
      · have : c + (j + 1) = c + 1 + j := by omega
        rw [this]
        exact hfr
      · intro i hij
        rcases Nat.eq_zero_or_pos i with h0 | hpos
        · rw [h0, Nat.add_zero]
          exact hmem
        · have : c + i = c + 1 + (i - 1) := by omega
          rw [this]
          exact hall (i - 1) (by omega)
    · refine ⟨0, by omega, ?_, by simpa using hmem, by omega⟩
      simp [resolveLoop, hmem]

theorem exists_free_cand (fs : List (String × String)) (folder stem ext : String)
    (c : Nat) :
    ∃ i, i < fs.length + 1 ∧ (folder, mkCand stem ext (c + i)) ∉ fs := by
  by_contra hcon
  push_neg at hcon
  set L : List (String × String) :=
    (List.range (fs.length + 1)).map (fun i => (folder, mkCand stem ext (c + i))) with hL
  have hnd : L.Nodup := by
    refine List.Nodup.map ?_ (List.nodup_range _)
    intro i1 i2 hpair
    have := mkCand_inj stem ext (congrArg Prod.snd hpair)
    omega
  have hsub : ∀ x ∈ L, x ∈ fs := by
    intro x hx
    rw [hL] at hx
    simp only [List.mem_map, List.mem_range] at hx
    obtain ⟨i, hi, rfl⟩ := hx
    exact hcon i hi
  have hcard : L.length ≤ fs.length := by
    have h1 : L.toFinset.card = L.length := List.toFinset_card_of_nodup hnd
    have h2 : L.toFinset ⊆ fs.toFinset := by
      intro x hx
      rw [List.mem_toFinset] at hx ⊢
      exact hsub x hx
    have h3 := Finset.card_le_card h2
    have h4 : fs.toFinset.card ≤ fs.length := fs.toFinset_card_le
    omega
  have hlen : L.length = fs.length + 1 := by
    rw [hL]; simp
  omega

/-- The resolved destination is free, and it is either the suggested name
itself, or — when the suggested name already exists — the candidate with the
smallest positive counter whose name does not exist, all smaller counters
colliding. -/
theorem resolveName_spec (fs : List (String × String)) (folder name : String) :
    (folder, resolveName fs folder name) ∉ fs ∧
    (resolveName fs folder name = name ∨
      ((folder, name) ∈ fs ∧ ∃ k, 1 ≤ k ∧
        resolveName fs folder name =
          mkCand (splitext name).1 (splitext name).2 k ∧
        (folder, mkCand (splitext name).1 (splitext name).2 k) ∉ fs ∧
        ∀ i, 1 ≤ i → i < k →
          (folder, mkCand (splitext name).1 (splitext name).2 i) ∈ fs)) := by
  by_cases hmem : (folder, name) ∈ fs
  · have hres : resolveName fs folder name =
        resolveLoop fs folder (splitext name).1 (splitext name).2
          (fs.length + 1) 1 := by
      simp [resolveName, hmem]
    obtain ⟨j, hj, heq, hfr, hall⟩ :=
      resolveLoop_spec fs folder (splitext name).1 (splitext name).2
        (fs.length + 1) 1
        (exists_free_cand fs folder (splitext name).1 (splitext name).2 1)
    constructor
    · rw [hres, heq]
      exact hfr
    · right
      refine ⟨hmem, 1 + j, by omega, by rw [hres, heq], hfr, ?_⟩
      intro i h1 hik
      have : i = 1 + (i - 1) := by omega
      rw [this]
      exact hall (i - 1) (by omega)
  · constructor
    · simp [resolveName, hmem]
    · left
      simp [resolveName, hmem]

/-! ### Keyword-profile lemmas -/

theorem updateProfile_keys (acc : List (String × Finset String)) (c : String)
    (ks : Finset String) :
    (updateProfile acc c ks).map Prod.fst =
      if c ∈ acc.map Prod.fst then acc.map Prod.fst
      else acc.map Prod.fst ++ [c] := by
  induction acc with
  | nil => simp [updateProfile]
  | cons e rest ih =>
    by_cases hc : e.1 = c
    · obtain ⟨e1, e2⟩ := e
      simp only at hc
      subst hc
      simp [updateProfile]
    · obtain ⟨e1, e2⟩ := e
      simp only at hc
      simp only [updateProfile, if_neg hc, List.map_cons, ih]
      by_cases hmem : c ∈ rest.map Prod.fst
      · have : c ∈ e1 :: rest.map Prod.fst := List.mem_cons_of_mem _ hmem
        simp [hmem, this]
      · have : c ∉ (e1 :: rest.map Prod.fst) := by
          intro hx
          rcases List.mem_cons.mp hx with h1 | h1
          · exact hc h1.symm
          · exact hmem h1
        simp [hmem, this]

theorem profilesFold_keys_nodup :
    ∀ (fd : List FileRec) (acc : List (String × Finset String)),
      (acc.map Prod.fst).Nodup →
      ((fd.foldl (fun acc r => updateProfile acc r.category r.keywords.toFinset)
          acc).map Prod.fst).Nodup := by
  intro fd
  induction fd with
  | nil => intro acc h; simpa using h
  | cons r rest ih =>
    intro acc h
    refine ih _ ?_
    rw [updateProfile_keys]
    by_cases hmem : r.category ∈ acc.map Prod.fst
    · simpa [hmem] using h
    · simp [hmem, List.nodup_append, h]

theorem buildProfiles_keys_nodup (fd : List FileRec) :
    ((buildProfiles fd).map Prod.fst).Nodup :=
  profilesFold_keys_nodup fd [] (by simp)

theorem profilesFold_keys_mono :
    ∀ (fd : List FileRec) (acc : List (String × Finset String)) (x : String),
      x ∈ acc.map Prod.fst →
      x ∈ (fd.foldl (fun acc r => updateProfile acc r.category r.keywords.toFinset)
          acc).map Prod.fst := by
  intro fd
  induction fd with
  | nil => intro acc x h; simpa using h
  | cons r rest ih =>
    intro acc x h
    refine ih _ x ?_
    rw [updateProfile_keys]
    by_cases hmem : r.category ∈ acc.map Prod.fst
    · simpa [hmem] using h
    · simp [hmem, h]

theorem mem_keys_profilesFold :
    ∀ (fd : List FileRec) (r : FileRec), r ∈ fd →
      ∀ acc, r.category ∈
        (fd.foldl (fun acc r => updateProfile acc r.category r.keywords.toFinset)
          acc).map Prod.fst := by
  intro fd
  induction fd with
  | nil => intro r h; cases h
  | cons r0 rest ih =>
    intro r h acc
    rcases List.mem_cons.mp h with h1 | h1
    · subst h1
      rw [List.foldl_cons]
      refine profilesFold_keys_mono rest _ r.category ?_
      rw [updateProfile_keys]
      by_cases hmem : r.category ∈ acc.map Prod.fst
      · simp [hmem]
      · simp [hmem]
    · rw [List.foldl_cons]
      exact ih r h1 _

theorem mem_keys_buildProfiles {fd : List FileRec} {r : FileRec} (h : r ∈ fd) :
    r.category ∈ (buildProfiles fd).map Prod.fst :=
  mem_keys_profilesFold fd r h []

theorem simFrac_eq_div (k1 k2 : Finset String) :
    simFrac k1 k2 = ((k1 ∩ k2).card : ℚ) / ((k1 ∪ k2).card : ℚ) := by
  rw [simFrac, Rat.mkRat_eq_div]
  push_cast
  rfl

theorem simThreshold_eq_div : simThreshold = (3 : ℚ) / 10 := by
  rw [simThreshold, Rat.mkRat_eq_div]
  norm_num

/-! ### Characterization of the inner similarity scan -/

theorem simFold_char (cat1 : String) (k1 : Finset String)
    (processed : List String) :
    ∀ (ps : List (String × Finset String)) (init l : List String),
      List.foldlM (simStep cat1 k1 processed) init ps = some l →
      l = init ++ (ps.filter (simPick cat1 k1 processed)).map Prod.fst := by
  intro ps
  induction ps with
  | nil =>
    intro init l h
    simp only [List.foldlM] at h
    cases h
    simp
  | cons q rest ih =>
    intro init l h
    rw [List.foldlM_cons] at h
    by_cases hg : q.1 ≠ cat1 ∧ q.1 ∉ processed
    · simp only [simStep, if_pos hg] at h
      cases hs : simOk k1 q.2 with
      | none => rw [hs] at h; cases h
      | some b =>
        rw [hs] at h
        simp only [Option.bind_eq_bind, Option.some_bind] at h
        have hp : simPick cat1 k1 processed q = b := by
          cases b <;> simp [simPick, hg, hs]
        cases b with
        | true =>
          rw [ih _ _ h]
          simp [List.filter_cons, hp]
        | false =>
          rw [ih _ _ h]
          simp [List.filter_cons, hp]
    · simp only [simStep, if_neg hg] at h
      simp only [Option.bind_eq_bind, Option.some_bind] at h
      have hp : simPick cat1 k1 processed q = false := by
        simp only [simPick, Bool.and_eq_false_iff]
        left
        simpa using hg
      rw [ih _ _ h]
      simp [List.filter_cons, hp]

theorem pickSimilar_char {profiles : List (String × Finset String)}
    {processed : List String} {cat1 : String} {k1 : Finset String}
    {l : List String}
    (h : pickSimilar profiles processed cat1 k1 = some l) :
    l = cat1 :: (profiles.filter (simPick cat1 k1 processed)).map Prod.fst := by
  have := simFold_char cat1 k1 processed profiles [cat1] l h
  simpa using this

theorem simPick_true_iff {cat1 : String} {k1 : Finset String}
    {processed : List String} {q : String × Finset String} :
    simPick cat1 k1 processed q = true ↔
      q.1 ≠ cat1 ∧ q.1 ∉ processed ∧ (k1 ∪ q.2).card ≠ 0 ∧
        simThreshold < simFrac k1 q.2 := by
  constructor
  · intro h
    simp only [simPick, Bool.and_eq_true, decide_eq_true_eq] at h
    obtain ⟨⟨h1, h2⟩, h3⟩ := h
    by_cases hc : (k1 ∪ q.2).card = 0
    · simp [simOk, hc] at h3
    · refine ⟨h1, h2, hc, ?_⟩
      simp only [simOk, if_neg hc] at h3
      simpa using h3
  · intro ⟨h1, h2, h3, h4⟩
    simp [simPick, h1, h2, simOk, h3, h4]

/-- Members of a `similar_cats` list: the seed, plus unprocessed distinct
categories of the profile list. -/
theorem pickSimilar_mem {profiles : List (String × Finset String)}
    {processed : List String} {cat1 : String} {k1 : Finset String}
    {l : List String}
    (h : pickSimilar profiles processed cat1 k1 = some l) :
    ∀ x ∈ l, x = cat1 ∨
      (x ∈ profiles.map Prod.fst ∧ x ∉ processed ∧ x ≠ cat1) := by
  intro x hx
  rw [pickSimilar_char h] at hx
  rcases List.mem_cons.mp hx with h1 | h1
  · exact Or.inl h1
  · right
    simp only [List.mem_map, List.mem_filter] at h1
    obtain ⟨q, ⟨hq, hpick⟩, rfl⟩ := h1
    obtain ⟨hne, hnp, _, _⟩ := simPick_true_iff.mp hpick
    exact ⟨List.mem_map_of_mem Prod.fst hq, hnp, hne⟩

/-- A `similar_cats` list has no duplicates when the profile keys are
duplicate-free. -/
theorem pickSimilar_nodup {profiles : List (String × Finset String)}
    {processed : List String} {cat1 : String} {k1 : Finset String}
    {l : List String}
    (hnd : (profiles.map Prod.fst).Nodup)
    (h : pickSimilar profiles processed cat1 k1 = some l) :
    l.Nodup := by
  rw [pickSimilar_char h]
  rw [List.nodup_cons]
  constructor
  · intro hx
    simp only [List.mem_map, List.mem_filter] at hx
    obtain ⟨q, ⟨_, hpick⟩, hq1⟩ := hx
    obtain ⟨hne, _, _, _⟩ := simPick_true_iff.mp hpick
    exact hne hq1
  · have hsub : List.Sublist ((profiles.filter (simPick cat1 k1 processed)).map
        Prod.fst) (profiles.map Prod.fst) :=
      (List.filter_sublist profiles).map Prod.fst
    exact hnd.sublist hsub

/-! ### Dictionary lemmas (`defaultdict(list)` semantics) -/

theorem dictAppend_keys {α : Type} (d : List (String × List α)) (k : String)
    (vs : List α) :
    (dictAppend d k vs).map Prod.fst =
      if k ∈ d.map Prod.fst then d.map Prod.fst else d.map Prod.fst ++ [k] := by
  induction d with
  | nil => simp [dictAppend]
  | cons e rest ih =>
    obtain ⟨e1, e2⟩ := e
    by_cases hc : e1 = k
    · subst hc
      simp [dictAppend]
    · simp only [dictAppend, if_neg hc, List.map_cons, ih]
      by_cases hmem : k ∈ rest.map Prod.fst
      · have : k ∈ e1 :: rest.map Prod.fst := List.mem_cons_of_mem _ hmem
        simp [hmem, this]
      · have : k ∉ (e1 :: rest.map Prod.fst) := by
          intro hx
          rcases List.mem_cons.mp hx with h1 | h1
          · exact hc h1.symm
          · exact hmem h1
        simp [hmem, this]

theorem dictAppend_values_perm {α : Type} (d : List (String × List α))
    (k : String) (vs : List α) :
    List.Perm ((dictAppend d k vs).flatMap Prod.snd)
      (d.flatMap Prod.snd ++ vs) := by
  induction d with
  | nil => simp [dictAppend]
  | cons e rest ih =>
    obtain ⟨e1, e2⟩ := e
    by_cases hc : e1 = k
    · subst hc
      simp only [dictAppend, eq_self_iff_true, if_true, List.flatMap_cons]
      rw [List.append_assoc, List.append_assoc]
      exact List.perm_append_comm.append_left e2
    · simp only [dictAppend, if_neg hc, List.flatMap_cons]
      rw [List.append_assoc]
      exact ih.append_left e2

theorem dictGet_dictAppend {α : Type} (d : List (String × List α))
    (k : String) (vs : List α) (k' : String) :
    dictGet (dictAppend d k vs) k' =
      if k' = k then dictGet d k ++ vs else dictGet d k' := by
  induction d with
  | nil =>
    by_cases hc : k' = k
    · subst hc
      simp [dictAppend, dictGet]
    · have : ¬ (k = k') := fun h => hc h.symm
      simp [dictAppend, dictGet, hc, this]
  | cons e rest ih =>
    obtain ⟨e1, e2⟩ := e
    by_cases hc : e1 = k
    · subst hc
      by_cases hc' : e1 = k'
      · subst hc'
        simp [dictAppend, dictGet]
      · have hne : ¬ (k' = e1) := fun h => hc' h.symm
        simp [dictAppend, dictGet, hc', hne]
    · by_cases hc' : e1 = k'
      · subst hc'
        have hne : ¬ (e1 = k) := hc
        simp [dictAppend, dictGet, hc, hne]
      · simp [dictAppend, dictGet, hc, hc', ih]

theorem dictAppend_keys_mem {α : Type} (d : List (String × List α))
    (k : String) (vs : List α) (k' : String) :
    k' ∈ (dictAppend d k vs).map Prod.fst ↔
      k' ∈ d.map Prod.fst ∨ k' = k := by
  rw [dictAppend_keys]
  by_cases hmem : k ∈ d.map Prod.fst
  · simp only [hmem, if_true]
    constructor
    · exact Or.inl
    · rintro (h | rfl)
      · exact h
      · exact hmem
  · simp [hmem]

theorem dictAppend_length {α : Type} (d : List (String × List α))
    (k : String) (vs : List α) :
    (dictAppend d k vs).length ≤ d.length + 1 := by
  induction d with
  | nil => simp [dictAppend]
  | cons e rest ih =>
    obtain ⟨e1, e2⟩ := e
    by_cases hc : e1 = k
    · subst hc
      simp [dictAppend]
    · simp only [dictAppend, if_neg hc, List.length_cons]
      omega

/-! ### `merge_categories` refines clusters-then-name -/

theorem mergeFold_eq (namer : List String → Option String) (fd : List FileRec)
    (profiles : List (String × Finset String)) :
    ∀ (l : List (String × Finset String)) (proc : List String)
      (cs : List (List String)),
      List.foldlM (mergeStep namer fd profiles) (proc, groupDict namer fd cs) l =
        (List.foldlM (clustersStep profiles) (proc, cs) l).map
          (fun st => (st.1, groupDict namer fd st.2)) := by
  intro l
  induction l with
  | nil => intro proc cs; rfl
  | cons p rest ih =>
    intro proc cs
    rw [List.foldlM_cons, List.foldlM_cons]
    by_cases hmem : p.1 ∈ proc
    · simp only [mergeStep, clustersStep, if_pos hmem]
      simpa using ih proc cs
    · simp only [mergeStep, clustersStep, if_neg hmem]
      cases hpick : pickSimilar profiles proc p.1 p.2 with
      | none => simp
      | some sim =>
        simp only [Option.bind_eq_bind, Option.some_bind]
        have hgd : dictAppend (groupDict namer fd cs)
            (get_merged_category_name namer sim)
            (sim.flatMap (collectMembers fd)) =
            groupDict namer fd (cs ++ [sim]) := by
          simp [groupDict]
        rw [hgd]
        simpa using ih (proc ++ sim) (cs ++ [sim])

theorem merge_eq_groupDict (namer : List String → Option String)
    (fd : List FileRec) :
    merge_categories namer fd =
      (buildClusters (buildProfiles fd)).map (groupDict namer fd) := by
  have h := mergeFold_eq namer fd (buildProfiles fd) (buildProfiles fd) [] []
  have hinit : groupDict namer fd [] = [] := rfl
  rw [hinit] at h
  rw [merge_categories, buildClusters, h]
  cases List.foldlM (clustersStep (buildProfiles fd)) ([], [])
      (buildProfiles fd) with
  | none => rfl
  | some st => rfl

theorem dictFold_keys_nodup (namer : List String → Option String)
    (fd : List FileRec) :
    ∀ (cs : List (List String)) (acc : List (String × List (String × String))),
      (acc.map Prod.fst).Nodup →
      ((cs.foldl (fun acc c =>
          dictAppend acc (get_merged_category_name namer c)
            (c.flatMap (collectMembers fd))) acc).map Prod.fst).Nodup := by
  intro cs
  induction cs with
  | nil => intro acc h; simpa using h
  | cons c rest ih =>
    intro acc h
    rw [List.foldl_cons]
    refine ih _ ?_
    rw [dictAppend_keys]
    by_cases hmem : get_merged_category_name namer c ∈ acc.map Prod.fst
    · simpa [hmem] using h
    · simp [hmem, List.nodup_append, h]

theorem merge_keys_nodup {namer : List String → Option String}
    {fd : List FileRec} {d : List (String × List (String × String))}
    (h : merge_categories namer fd = some d) : (d.map Prod.fst).Nodup := by
  rw [merge_eq_groupDict] at h
  obtain ⟨cs, _, rfl⟩ := Option.map_eq_some'.mp h
  exact dictFold_keys_nodup namer fd cs [] (by simp)

theorem dictFold_get (namer : List String → Option String) (fd : List FileRec) :
    ∀ (cs : List (List String)) (acc : List (String × List (String × String)))
      (k : String),
      dictGet (cs.foldl (fun acc c =>
          dictAppend acc (get_merged_category_name namer c)
            (c.flatMap (collectMembers fd))) acc) k =
        dictGet acc k ++
          (cs.filter (fun c => decide (get_merged_category_name namer c = k))).flatMap
            (fun c => c.flatMap (collectMembers fd)) := by
  intro cs
  induction cs with
  | nil => intro acc k; simp
  | cons c rest ih =>
    intro acc k
    rw [List.foldl_cons, ih]
    rw [dictGet_dictAppend]
    by_cases hc : get_merged_category_name namer c = k
    · subst hc
      simp [List.filter_cons, List.append_assoc]
    · have hk : ¬ (k = get_merged_category_name namer c) := fun h => hc h.symm
      simp [List.filter_cons, hc, hk]

theorem dictFold_keys_mem (namer : List String → Option String)
    (fd : List FileRec) :
    ∀ (cs : List (List String)) (acc : List (String × List (String × String)))
      (k : String),
      k ∈ (cs.foldl (fun acc c =>
          dictAppend acc (get_merged_category_name namer c)
            (c.flatMap (collectMembers fd))) acc).map Prod.fst ↔
        k ∈ acc.map Prod.fst ∨
          ∃ c ∈ cs, get_merged_category_name namer c = k := by
  intro cs
  induction cs with
  | nil => intro acc k; simp
  | cons c rest ih =>
    intro acc k
    rw [List.foldl_cons, ih, dictAppend_keys_mem]
    constructor
    · rintro ((h | h) | h)
      · exact Or.inl h
      · exact Or.inr ⟨c, List.mem_cons_self c rest, h.symm⟩
      · obtain ⟨c', hc', he⟩ := h
        exact Or.inr ⟨c', List.mem_cons_of_mem c hc', he⟩
    · rintro (h | ⟨c', hc', he⟩)
      · exact Or.inl (Or.inl h)
      · rcases List.mem_cons.mp hc' with h1 | h1
        · subst h1
          exact Or.inl (Or.inr he.symm)
        · exact Or.inr ⟨c', h1, he⟩

theorem dictFold_length (namer : List String → Option String)
    (fd : List FileRec) :
    ∀ (cs : List (List String)) (acc : List (String × List (String × String))),
      (cs.foldl (fun acc c =>
          dictAppend acc (get_merged_category_name namer c)
            (c.flatMap (collectMembers fd))) acc).length ≤
        acc.length + cs.length := by
  intro cs
  induction cs with
  | nil => intro acc; simp
  | cons c rest ih =>
    intro acc
    rw [List.foldl_cons]
    have h1 := ih (dictAppend acc (get_merged_category_name namer c)
      (c.flatMap (collectMembers fd)))
    have h2 := dictAppend_length acc (get_merged_category_name namer c)
      (c.flatMap (collectMembers fd))
    simp only [List.length_cons]
    omega

/-! ### The clusters partition the raw categories -/

theorem clustersFold_partition {profiles : List (String × Finset String)}
    (hnd : (profiles.map Prod.fst).Nodup) :
    ∀ (l : List (String × Finset String)) (proc : List String)
      (cs : List (List String)) res,
      List.foldlM (clustersStep profiles) (proc, cs) l = some res →
      (∀ q ∈ l, q ∈ profiles) →
      (∀ x, x ∈ proc ↔ x ∈ cs.flatten) →
      cs.flatten.Nodup →
      (∀ x ∈ proc, x ∈ profiles.map Prod.fst) →
      ((∀ x, x ∈ res.1 ↔ x ∈ res.2.flatten) ∧ res.2.flatten.Nodup ∧
        (∀ x ∈ res.1, x ∈ profiles.map Prod.fst) ∧
        (∀ x ∈ proc, x ∈ res.1) ∧ (∀ q ∈ l, q.1 ∈ res.1)) := by
  intro l
  induction l with
  | nil =>
    intro proc cs res h _ hiff hnodup hkeys
    simp only [List.foldlM] at h
    cases h
    exact ⟨hiff, hnodup, hkeys, fun x hx => hx, by simp⟩
  | cons p rest ih =>
    intro proc cs res h hsub hiff hnodup hkeys
    rw [List.foldlM_cons] at h
    by_cases hmem : p.1 ∈ proc
    · simp only [clustersStep, if_pos hmem, Option.bind_eq_bind,
        Option.some_bind] at h
      obtain ⟨h1, h2, h3, h4, h5⟩ :=
        ih proc cs res h (fun q hq => hsub q (List.mem_cons_of_mem p hq))
          hiff hnodup hkeys
      exact ⟨h1, h2, h3, h4, fun q hq => by
        rcases List.mem_cons.mp hq with h6 | h6
        · subst h6; exact h4 _ hmem
        · exact h5 q h6⟩
    · simp only [clustersStep, if_neg hmem] at h
      cases hpick : pickSimilar profiles proc p.1 p.2 with
      | none => rw [hpick] at h; cases h
      | some sim =>
        rw [hpick] at h
        simp only [Option.bind_eq_bind, Option.some_bind] at h
        have hchar := pickSimilar_char hpick
        have hsimnd := pickSimilar_nodup hnd hpick
        have hsimmem := pickSimilar_mem hpick
        have hp1sim : p.1 ∈ sim := by rw [hchar]; exact List.mem_cons_self _ _
        have hsimfresh : ∀ x ∈ sim, x ∉ proc := by
          intro x hx
          rcases hsimmem x hx with h1 | h1
          · subst h1; exact hmem
          · exact h1.2.1
        have hsimkeys : ∀ x ∈ sim, x ∈ profiles.map Prod.fst := by
          intro x hx
          rcases hsimmem x hx with h1 | h1
          · subst h1
            exact List.mem_map_of_mem Prod.fst (hsub p (List.mem_cons_self p rest))
          · exact h1.1
        have hiff' : ∀ x, x ∈ proc ++ sim ↔ x ∈ (cs ++ [sim]).flatten := by
          intro x
          simp only [List.mem_append, List.flatten_append, List.flatten_cons,
            List.flatten_nil, List.append_nil, hiff x]
        have hnodup' : (cs ++ [sim]).flatten.Nodup := by
          simp only [List.flatten_append, List.flatten_cons, List.flatten_nil,
            List.append_nil]
          rw [List.nodup_append]
          refine ⟨hnodup, hsimnd, ?_⟩
          intro x hx hx'
          exact hsimfresh x hx' ((hiff x).mpr hx)
        have hkeys' : ∀ x ∈ proc ++ sim, x ∈ profiles.map Prod.fst := by
          intro x hx
          rcases List.mem_append.mp hx with h1 | h1
          · exact hkeys x h1
          · exact hsimkeys x h1
        obtain ⟨h1, h2, h3, h4, h5⟩ :=
          ih (proc ++ sim) (cs ++ [sim]) res h
            (fun q hq => hsub q (List.mem_cons_of_mem p hq)) hiff' hnodup' hkeys'
        refine ⟨h1, h2, h3, ?_, ?_⟩
        · intro x hx
          exact h4 x (List.mem_append.mpr (Or.inl hx))
        · intro q hq
          rcases List.mem_cons.mp hq with h6 | h6
          · subst h6
            exact h4 q.1 (List.mem_append.mpr (Or.inr hp1sim))
          · exact h5 q h6

theorem buildClusters_partition {profiles : List (String × Finset String)}
    (hnd : (profiles.map Prod.fst).Nodup) {cs : List (List String)}
    (h : buildClusters profiles = some cs) :
    cs.flatten.Nodup ∧ (∀ x, x ∈ cs.flatten ↔ x ∈ profiles.map Prod.fst) := by
  rw [buildClusters] at h
  obtain ⟨st, hst, rfl⟩ := Option.map_eq_some'.mp h
  obtain ⟨h1, h2, h3, _, h5⟩ :=
    clustersFold_partition hnd profiles [] [] st hst (fun q hq => hq)
      (by simp) (by simp) (by simp)
  refine ⟨h2, fun x => ⟨fun hx => h3 x ((h1 x).mpr hx), fun hx => ?_⟩⟩
  simp only [List.mem_map] at hx
  obtain ⟨q, hq, rfl⟩ := hx
  exact (h1 q.1).mp (h5 q hq)

/-! ### Every record lands in exactly one merged group -/

theorem flatMap_congr {α β : Type} {l : List α} {f g : α → List β}
    (h : ∀ x ∈ l, f x = g x) : l.flatMap f = l.flatMap g := by
  induction l with
  | nil => rfl
  | cons x rest ih =>
    simp only [List.flatMap_cons]
    rw [h x (List.mem_cons_self x rest), ih (fun y hy => h y (List.mem_cons_of_mem x hy))]

theorem flatten_flatMap {α β : Type} (l : List (List α)) (g : α → List β) :
    l.flatten.flatMap g = l.flatMap (fun c => c.flatMap g) := by
  induction l with
  | nil => rfl
  | cons c rest ih => simp [ih]

theorem dictFold_values_perm (namer : List String → Option String)
    (fd : List FileRec) :
    ∀ (cs : List (List String)) (acc : List (String × List (String × String))),
      List.Perm ((cs.foldl (fun acc c =>
            dictAppend acc (get_merged_category_name namer c)
              (c.flatMap (collectMembers fd))) acc).flatMap Prod.snd)
        (acc.flatMap Prod.snd ++
          cs.flatMap (fun c => c.flatMap (collectMembers fd))) := by
  intro cs
  induction cs with
  | nil => intro acc; simp
  | cons c rest ih =>
    intro acc
    rw [List.foldl_cons]
    refine (ih _).trans ?_
    have h1 := dictAppend_values_perm acc (get_merged_category_name namer c)
      (c.flatMap (collectMembers fd))
    refine (h1.append_right _).trans ?_
    rw [List.flatMap_cons, List.append_assoc]

theorem bind_filter_perm :
    ∀ (cats : List String) (fd : List FileRec),
      cats.Nodup → (∀ r ∈ fd, r.category ∈ cats) →
      List.Perm (cats.flatMap (fun c => fd.filter (fun r => r.category = c))) fd := by
  intro cats
  induction cats with
  | nil =>
    intro fd _ hcov
    have : fd = [] := List.eq_nil_iff_forall_not_mem.mpr
      (fun r hr => by simpa using hcov r hr)
    simp [this]
  | cons c rest ih =>
    intro fd hnd hcov
    obtain ⟨hc, hrestnd⟩ := List.nodup_cons.mp hnd
    rw [List.flatMap_cons]
    have hfc : ∀ c' ∈ rest,
        fd.filter (fun r => r.category = c') =
          (fd.filter (fun r => !(decide (r.category = c)))).filter
            (fun r => r.category = c') := by
      intro c' hc'
      have hne : c' ≠ c := fun h => hc (h ▸ hc')
      rw [List.filter_filter]
      refine List.filter_congr ?_
      intro r _
      by_cases hr : r.category = c'
      · have hrc : ¬ (r.category = c) := fun h => hne (by rw [← hr, h])
        simp [hr, hrc, hne]
      · simp [hr]
    rw [flatMap_congr hfc]
    have hcov' : ∀ r ∈ fd.filter (fun r => !(decide (r.category = c))),
        r.category ∈ rest := by
      intro r hr
      rw [List.mem_filter] at hr
      obtain ⟨hrf, hrc⟩ := hr
      have : r.category ≠ c := by simpa using hrc
      rcases List.mem_cons.mp (hcov r hrf) with h1 | h1
      · exact absurd h1 this
      · exact h1
    have hperm := ih (fd.filter (fun r => !(decide (r.category = c)))) hrestnd hcov'
    refine (hperm.append_left _).trans ?_
    exact List.filter_append_perm _ fd

theorem merge_members_perm {namer : List String → Option String}
    {fd : List FileRec} {d : List (String × List (String × String))}
    (h : merge_categories namer fd = some d) :
    List.Perm (d.flatMap Prod.snd) (fd.map (fun r => (r.path, r.newName))) := by
  rw [merge_eq_groupDict] at h
  obtain ⟨cs, hcs, rfl⟩ := Option.map_eq_some'.mp h
  obtain ⟨hflnd, hfliff⟩ := buildClusters_partition (buildProfiles_keys_nodup fd) hcs
  have step1 := dictFold_values_perm namer fd cs []
  simp only [List.flatMap_nil, List.nil_append] at step1
  have step2 : cs.flatMap (fun c => c.flatMap (collectMembers fd)) =
      cs.flatten.flatMap (collectMembers fd) := (flatten_flatMap cs _).symm
  have step3 : cs.flatten.flatMap (collectMembers fd) =
      (cs.flatten.flatMap (fun c => fd.filter (fun r => r.category = c))).map
        (fun r => (r.path, r.newName)) := by
    rw [List.map_flatMap]
    rfl
  have hcover : ∀ r ∈ fd, r.category ∈ cs.flatten := by
    intro r hr
    exact (hfliff r.category).mpr (mem_keys_buildProfiles hr)
  have step4 := (bind_filter_perm cs.flatten fd hflnd hcover).map
    (fun r => (r.path, r.newName))
  refine step1.trans ?_
  rw [step2, step3]
  exact step4

/-! ### The spec-side clustering procedure -/

theorem pickSimilar_toFinset {profiles : List (String × Finset String)}
    {procL : List String} {c : String} {k : Finset String} {l : List String}
    (h : pickSimilar profiles procL c k = some l)
    {procF : Finset String} (hiff : ∀ x, x ∈ procL ↔ x ∈ procF) :
    l.toFinset = insert c
      (((profiles.filter (fun q =>
          decide (q.1 ∉ procF ∧ simThreshold < jaccardSpec k q.2))).map
        Prod.fst).toFinset) := by
  ext x
  by_cases hx : x = c
  · subst hx
    constructor
    · intro _; exact Finset.mem_insert_self x _
    · intro _
      rw [List.mem_toFinset, pickSimilar_char h]
      exact List.mem_cons_self x _
  · rw [Finset.mem_insert, List.mem_toFinset, pickSimilar_char h]
    simp only [List.mem_cons, List.mem_toFinset, List.mem_map, List.mem_filter]
    constructor
    · rintro (h1 | ⟨q, ⟨hq, hpick⟩, rfl⟩)
      · exact absurd h1 hx
      · right
        obtain ⟨hne, hnp, hcard, hrat⟩ := simPick_true_iff.mp hpick
        refine ⟨q, ⟨hq, ?_⟩, rfl⟩
        have : jaccardSpec k q.2 = simFrac k q.2 := by
          simp [jaccardSpec, hcard]
        simp only [decide_eq_true_eq]
        exact ⟨fun hmem => hnp ((hiff q.1).mpr hmem), by rw [this]; exact hrat⟩
    · rintro (h1 | ⟨q, ⟨hq, hcond⟩, rfl⟩)
      · exact absurd h1 hx
      · right
        simp only [decide_eq_true_eq] at hcond
        obtain ⟨hnp, hrat⟩ := hcond
        have hcard : (k ∪ q.2).card ≠ 0 := by
          intro h0
          rw [jaccardSpec, if_pos h0, simThreshold_eq_div] at hrat
          norm_num at hrat
        have hrt : simThreshold < simFrac k q.2 := by
          rwa [jaccardSpec, if_neg hcard] at hrat
        refine ⟨q, ⟨hq, simPick_true_iff.mpr ⟨hx, fun hmem => hnp ((hiff q.1).mp hmem), hcard, hrt⟩⟩, rfl⟩

theorem clustersRel (profiles : List (String × Finset String)) :
    ∀ (l : List (String × Finset String)) (procL : List String)
      (procF : Finset String) (csL : List (List String))
      (csF : List (Finset String)) res,
      List.foldlM (clustersStep profiles) (procL, csL) l = some res →
      (∀ x, x ∈ procL ↔ x ∈ procF) →
      csL.map List.toFinset = csF →
      ((∀ x, x ∈ res.1 ↔ x ∈ (l.foldl (specStep profiles) (procF, csF)).1) ∧
        res.2.map List.toFinset = (l.foldl (specStep profiles) (procF, csF)).2) := by
  intro l
  induction l with
  | nil =>
    intro procL procF csL csF res h hiff hcs
    simp only [List.foldlM] at h
    cases h
    exact ⟨hiff, hcs⟩
  | cons p rest ih =>
    intro procL procF csL csF res h hiff hcs
    rw [List.foldlM_cons] at h
    rw [List.foldl_cons]
    by_cases hmem : p.1 ∈ procL
    · have hmemF : p.1 ∈ procF := (hiff p.1).mp hmem
      simp only [clustersStep, if_pos hmem, Option.bind_eq_bind,
        Option.some_bind] at h
      rw [specStep, if_pos hmemF]
      exact ih procL procF csL csF res h hiff hcs
    · have hmemF : p.1 ∉ procF := fun hm => hmem ((hiff p.1).mpr hm)
      simp only [clustersStep, if_neg hmem] at h
      cases hpick : pickSimilar profiles procL p.1 p.2 with
      | none => rw [hpick] at h; cases h
      | some sim =>
        rw [hpick] at h
        simp only [Option.bind_eq_bind, Option.some_bind] at h
        rw [specStep, if_neg hmemF]
        have hcl := pickSimilar_toFinset hpick hiff
        have hiff' : ∀ x, x ∈ procL ++ sim ↔
            x ∈ procF ∪ sim.toFinset := by
          intro x
          rw [List.mem_append, Finset.mem_union, hiff x, List.mem_toFinset]
        have hcs' : (csL ++ [sim]).map List.toFinset =
            csF ++ [sim.toFinset] := by
          simp [hcs]
        have := ih (procL ++ sim) (procF ∪ sim.toFinset) (csL ++ [sim])
          (csF ++ [sim.toFinset]) res h hiff' hcs'
        rw [← hcl]
        exact this

theorem buildClusters_spec {profiles : List (String × Finset String)}
    {cs : List (List String)} (h : buildClusters profiles = some cs) :
    specClusters profiles = cs.map List.toFinset := by
  rw [buildClusters] at h
  obtain ⟨st, hst, rfl⟩ := Option.map_eq_some'.mp h
  obtain ⟨_, h2⟩ :=
    clustersRel profiles profiles [] ∅ [] [] st hst (by simp) (by simp)
  rw [specClusters, ← h2]

/-! ### Orchestrator lemmas -/

theorem resolveName_free {fs : List (String × String)} {folder name : String}
    (h : (folder, name) ∉ fs) : resolveName fs folder name = name := by
  simp [resolveName, h]

theorem processFile_dry (mv : String → Bool) (folder : String) (st : OrgState)
    (m : String × String) :
    processFile true mv folder st m =
      ⟨st.fs, st.stats, st.ds ++ [(folder, resolveName st.fs folder m.2)]⟩ := rfl

theorem groupFold_dry (mv : String → Bool) (folder : String) :
    ∀ (ms : List (String × String)) (st : OrgState),
      ms.foldl (processFile true mv folder) st =
        ⟨st.fs, st.stats,
         st.ds ++ ms.map (fun m => (folder, resolveName st.fs folder m.2))⟩ := by
  intro ms
  induction ms with
  | nil => intro st; simp
  | cons m rest ih =>
    intro st
    rw [List.foldl_cons, processFile_dry, ih]
    simp

theorem orgFold_dry (mv : String → Bool) :
    ∀ (d : List (String × List (String × String))) (st : OrgState),
      d.foldl (processGroup true mv) st =
        ⟨st.fs, st.stats,
         st.ds ++ d.flatMap (fun g =>
           g.2.map (fun m => (g.1, resolveName st.fs g.1 m.2)))⟩ := by
  intro d
  induction d with
  | nil => intro st; simp
  | cons g rest ih =>
    intro st
    rw [List.foldl_cons]
    show rest.foldl (processGroup true mv)
      (g.2.foldl (processFile true mv g.1) st) = _
    rw [groupFold_dry, ih]
    simp

theorem organize_dry (cls : String → Option LLMParse)
    (namer : List String → Option String) (mv : String → Bool)
    (fs0 : List (String × String)) (files : List String) :
    organize_files true cls namer mv fs0 files =
      (merge_categories namer (collectRecords cls files)).map (fun d =>
        (d.flatMap (fun g => g.2.map (fun m => (g.1, resolveName fs0 g.1 m.2))),
         ⟨files.length, 0, 0⟩)) := by
  rw [organize_files]
  cases hm : merge_categories namer (collectRecords cls files) with
  | none => rfl
  | some d =>
    simp only [Option.map_some']
    rw [show (d.foldl (processGroup true mv) ⟨fs0, ⟨files.length, 0, 0⟩, []⟩) =
      _ from orgFold_dry mv d ⟨fs0, ⟨files.length, 0, 0⟩, []⟩]
    simp

theorem processFile_stats_real (mv : String → Bool) (folder : String)
    (st : OrgState) (m : String × String) :
    (processFile false mv folder st m).stats =
      ⟨st.stats.processed, st.stats.moved + (if mv m.1 then 1 else 0),
       st.stats.errors + (if mv m.1 then 0 else 1)⟩ := by
  cases hmv : mv m.1 <;> simp [processFile, hmv]

theorem groupFold_stats_real (mv : String → Bool) (folder : String) :
    ∀ (ms : List (String × String)) (st : OrgState),
      (ms.foldl (processFile false mv folder) st).stats =
        ⟨st.stats.processed, st.stats.moved + ms.countP (fun m => mv m.1),
         st.stats.errors + ms.countP (fun m => !(mv m.1))⟩ := by
  intro ms
  induction ms with
  | nil => intro st; simp
  | cons m rest ih =>
    intro st
    rw [List.foldl_cons, ih, processFile_stats_real]
    simp only [List.countP_cons]
    cases hmv : mv m.1 <;> simp [hmv] <;> omega

theorem orgFold_stats_real (mv : String → Bool) :
    ∀ (d : List (String × List (String × String))) (st : OrgState),
      (d.foldl (processGroup false mv) st).stats =
        ⟨st.stats.processed,
         st.stats.moved + (d.flatMap Prod.snd).countP (fun m => mv m.1),
         st.stats.errors + (d.flatMap Prod.snd).countP (fun m => !(mv m.1))⟩ := by
  intro d
  induction d with
  | nil => intro st; simp
  | cons g rest ih =>
    intro st
    rw [List.foldl_cons]
    show (rest.foldl (processGroup false mv)
      (g.2.foldl (processFile false mv g.1) st)).stats = _
    rw [ih, groupFold_stats_real]
    simp only [List.flatMap_cons, List.countP_append, Stats.mk.injEq]
    refine ⟨trivial, by omega, by omega⟩

/-- The statistics contract of `organize_files`: `processed` counts the
discovered files; a dry run moves nothing and records no errors; a real run
counts one `moved` per successful move and one `errors` per failed move. -/
theorem organize_stats {dryRun : Bool} {cls : String → Option LLMParse}
    {namer : List String → Option String} {mv : String → Bool}
    {fs0 : List (String × String)} {files : List String}
    {ds : List (String × String)} {s : Stats}
    (h : organize_files dryRun cls namer mv fs0 files = some (ds, s)) :
    s.processed = files.length ∧
    (dryRun = true → s.moved = 0 ∧ s.errors = 0) ∧
    (dryRun = false →
      ∀ d, merge_categories namer (collectRecords cls files) = some d →
        s.moved = (d.flatMap Prod.snd).countP (fun m => mv m.1) ∧
        s.errors = (d.flatMap Prod.snd).countP (fun m => !(mv m.1))) := by
  cases hm : merge_categories namer (collectRecords cls files) with
  | none =>
    rw [organize_files, hm] at h
    cases h
  | some d0 =>
    rw [organize_files, hm] at h
    have hpair := Option.some_inj.mp h
    have hs : (d0.foldl (processGroup dryRun mv)
        ⟨fs0, ⟨files.length, 0, 0⟩, []⟩).stats = s := congrArg Prod.snd hpair
    cases dryRun with
    | true =>
      rw [orgFold_dry] at hs
      have hs' : (⟨files.length, 0, 0⟩ : Stats) = s := hs
      subst hs'
      exact ⟨rfl, fun _ => ⟨rfl, rfl⟩, by simp⟩
    | false =>
      rw [orgFold_stats_real] at hs
      have hs' : (⟨files.length,
          0 + (d0.flatMap Prod.snd).countP (fun m => mv m.1),
          0 + (d0.flatMap Prod.snd).countP (fun m => !(mv m.1))⟩ : Stats) = s := hs
      subst hs'
      refine ⟨rfl, by simp, fun _ d hd => ?_⟩
      obtain rfl : d0 = d := Option.some_inj.mp hd
      exact ⟨by simp, by simp⟩

theorem groupFold_real_noColl (mv : String → Bool) (folder : String) :
    ∀ (ms : List (String × String)) (st : OrgState),
      (ms.map Prod.snd).Nodup →
      (∀ m ∈ ms, (folder, m.2) ∉ st.fs) →
      ((ms.foldl (processFile false mv folder) st).ds =
          st.ds ++ ms.map (fun m => (folder, m.2))) ∧
        (∀ e ∈ (ms.foldl (processFile false mv folder) st).fs,
          e ∈ st.fs ∨ (e.1 = folder ∧ e.2 ∈ ms.map Prod.snd)) := by
  intro ms
  induction ms with
  | nil =>
    intro st _ _
    simp
  | cons m rest ih =>
    intro st hnd hfree
    have hnd' : (m.2 :: rest.map Prod.snd).Nodup := by simpa using hnd
    obtain ⟨hhd, htl⟩ := List.nodup_cons.mp hnd'
    have hmfree : (folder, m.2) ∉ st.fs := hfree m (List.mem_cons_self m rest)
    have hres : resolveName st.fs folder m.2 = m.2 := resolveName_free hmfree
    rw [List.foldl_cons]
    set st' := processFile false mv folder st m with hst'
    have hfs' : st'.fs = st.fs ∨ st'.fs = (folder, m.2) :: st.fs := by
      rw [hst']
      cases hmv : mv m.1
      · left; simp [processFile, hmv]
      · right; simp [processFile, hmv, hres]
    have hds' : st'.ds = st.ds ++ [(folder, m.2)] := by
      rw [hst']
      cases hmv : mv m.1 <;> simp [processFile, hmv, hres]
    have hfree' : ∀ m' ∈ rest, (folder, m'.2) ∉ st'.fs := by
      intro m' hm'
      rcases hfs' with hf | hf
      · rw [hf]; exact hfree m' (List.mem_cons_of_mem m hm')
      · rw [hf]
        intro hx
        rcases List.mem_cons.mp hx with h1 | h1
        · have hsnd : m'.2 = m.2 := by
            have h1' := h1
            simp only [Prod.mk.injEq] at h1'
            exact h1'.2
          exact hhd (hsnd ▸ List.mem_map_of_mem Prod.snd hm')
        · exact hfree m' (List.mem_cons_of_mem m hm') h1
    obtain ⟨ihds, ihfs⟩ := ih st' htl hfree'
    constructor
    · rw [ihds, hds']
      simp
    · intro e he
      rcases ihfs e he with h1 | ⟨h1, h2⟩
      · rcases hfs' with hf | hf
        · rw [hf] at h1
          exact Or.inl h1
        · rw [hf] at h1
          rcases List.mem_cons.mp h1 with h3 | h3
          · right
            refine ⟨by rw [h3], ?_⟩
            rw [show e.2 = m.2 by rw [h3]]
            simp
          · exact Or.inl h3
      · right
        exact ⟨h1, by simp [h2]⟩

theorem orgFold_real_noColl (mv : String → Bool) :
    ∀ (d : List (String × List (String × String))) (st : OrgState),
      (d.map Prod.fst).Nodup →
      (∀ g ∈ d, (g.2.map Prod.snd).Nodup) →
      (∀ g ∈ d, ∀ m ∈ g.2, (g.1, m.2) ∉ st.fs) →
      ((d.foldl (processGroup false mv) st).ds =
          st.ds ++ d.flatMap (fun g => g.2.map (fun m => (g.1, m.2)))) ∧
        (∀ e ∈ (d.foldl (processGroup false mv) st).fs,
          e ∈ st.fs ∨ e.1 ∈ d.map Prod.fst) := by
  intro d
  induction d with
  | nil =>
    intro st _ _ _
    simp
  | cons g rest ih =>
    intro st hknd hnd hfree
    have hknd' : (g.1 :: rest.map Prod.fst).Nodup := by simpa using hknd
    obtain ⟨hghd, hktl⟩ := List.nodup_cons.mp hknd'
    rw [List.foldl_cons]
    obtain ⟨gds, gfs⟩ := groupFold_real_noColl mv g.1 g.2 st
      (hnd g (List.mem_cons_self g rest))
      (hfree g (List.mem_cons_self g rest))
    set st1 := processGroup false mv st g with hst1
    have hfree' : ∀ g' ∈ rest, ∀ m ∈ g'.2, (g'.1, m.2) ∉ st1.fs := by
      intro g' hg' m hm hx
      rcases gfs (g'.1, m.2) hx with h1 | ⟨h1, _⟩
      · exact hfree g' (List.mem_cons_of_mem g hg') m hm h1
      · simp only at h1
        exact hghd (h1 ▸ List.mem_map_of_mem Prod.fst hg')
    obtain ⟨ihds, ihfs⟩ := ih st1 hktl
      (fun g' hg' => hnd g' (List.mem_cons_of_mem g hg')) hfree'
    constructor
    · rw [ihds]
      have h1 : st1.ds = st.ds ++ g.2.map (fun m => (g.1, m.2)) := gds
      rw [h1, List.flatMap_cons, List.append_assoc]
    · intro e he
      rcases ihfs e he with h1 | h1
      · rcases gfs e h1 with h2 | ⟨h2, _⟩
        · exact Or.inl h2
        · right
          rw [h2]
          simp
      · right
        simp only [List.map_cons, List.mem_cons]
        exact Or.inr h1

/-! ### Destination uniqueness in a fully successful real run -/

theorem processFile_good {mv : String → Bool} {folder : String} {st : OrgState}
    {m : String × String} (hmv : ∀ f, mv f = true) (h : goodState st) :
    goodState (processFile false mv folder st m) := by
  obtain ⟨hnd, hsub⟩ := h
  have hfree := (resolveName_spec st.fs folder m.2).1
  have hred : processFile false mv folder st m =
      ⟨(folder, resolveName st.fs folder m.2) :: st.fs,
       ⟨st.stats.processed, st.stats.moved + 1, st.stats.errors⟩,
       st.ds ++ [(folder, resolveName st.fs folder m.2)]⟩ := by
    simp [processFile, hmv m.1]
  rw [hred]
  constructor
  · rw [List.nodup_append]
    refine ⟨hnd, List.nodup_singleton _, ?_⟩
    intro x hx hx'
    rcases List.mem_singleton.mp hx' with rfl
    exact hfree (hsub _ hx)
  · intro x hx
    rcases List.mem_append.mp hx with h1 | h1
    · exact List.mem_cons_of_mem _ (hsub x h1)
    · rcases List.mem_singleton.mp h1 with rfl
      exact List.mem_cons_self _ _

theorem groupFold_good {mv : String → Bool} (hmv : ∀ f, mv f = true)
    (folder : String) :
    ∀ (ms : List (String × String)) (st : OrgState), goodState st →
      goodState (ms.foldl (processFile false mv folder) st) := by
  intro ms
  induction ms with
  | nil => intro st h; exact h
  | cons m rest ih =>
    intro st h
    rw [List.foldl_cons]
    exact ih _ (processFile_good hmv h)

theorem orgFold_good {mv : String → Bool} (hmv : ∀ f, mv f = true) :
    ∀ (d : List (String × List (String × String))) (st : OrgState),
      goodState st → goodState (d.foldl (processGroup false mv) st) := by
  intro d
  induction d with
  | nil => intro st h; exact h
  | cons g rest ih =>
    intro st h
    rw [List.foldl_cons]
    exact ih _ (groupFold_good hmv g.1 g.2 st h)

/-- In a real run in which every move succeeds, the decision sequence is
duplicate-free: no two resolved destinations coincide. -/
theorem organize_real_nodup {cls : String → Option LLMParse}
    {namer : List String → Option String} {mv : String → Bool}
    {fs0 : List (String × String)} {files : List String}
    {ds : List (String × String)} {s : Stats}
    (hmv : ∀ f, mv f = true)
    (h : organize_files false cls namer mv fs0 files = some (ds, s)) :
    ds.Nodup := by
  cases hm : merge_categories namer (collectRecords cls files) with
  | none =>
    rw [organize_files, hm] at h
    cases h
  | some d =>
    rw [organize_files, hm] at h
    have hpair := Option.some_inj.mp h
    have hds : (d.foldl (processGroup false mv)
        ⟨fs0, ⟨files.length, 0, 0⟩, []⟩).ds = ds := congrArg Prod.fst hpair
    have hgood := (orgFold_good hmv d ⟨fs0, ⟨files.length, 0, 0⟩, []⟩
      ⟨List.nodup_nil, by simp⟩).1
    rw [hds] at hgood
    exact hgood

/-! ## Claims -/

/-- C1.  The claim says that for keyword sets with empty union the pairwise
similarity during category merging is 0 and no division-by-zero fault is
raised.  The code divides by `len(keywords1.union(keywords2))` unguarded
(line 106), so on two distinct categories whose keyword sets are both empty
it raises `ZeroDivisionError` (modelled as `none`), aborting the merge —
while the spec's own similarity (`jaccardSpec`) is `0` there.  This theorem
exhibits the fault. -/
theorem c1_similarity_division_fault :
    simOk ∅ ∅ = none ∧ jaccardSpec ∅ ∅ = 0 ∧
    buildClusters [("CatA", (∅ : Finset String)), ("CatB", ∅)] = none := by
  refine ⟨by decide, by decide, by decide⟩

/-- C2, counterexample.  The claim says the sequence of
(category, resolved destination) decisions is identical between a dry run
and a real run.  With two files whose suggested names collide, the dry run
resolves both to `doc.txt` (no move mutates the target tree), while the real
run resolves the second to `doc_1.txt`: the decision sequences differ. -/
theorem c2_dry_real_divergence :
    organize_files true (fun _ => some ⟨some "Cat", some "kw", some "doc"⟩)
        (fun _ => none) (fun _ => true) [] ["a.txt", "b.txt"] =
      some ([("Cat", "doc.txt"), ("Cat", "doc.txt")], ⟨2, 0, 0⟩) ∧
    organize_files false (fun _ => some ⟨some "Cat", some "kw", some "doc"⟩)
        (fun _ => none) (fun _ => true) [] ["a.txt", "b.txt"] =
      some ([("Cat", "doc.txt"), ("Cat", "doc_1.txt")], ⟨2, 2, 0⟩) ∧
    ([("Cat", "doc.txt"), ("Cat", "doc.txt")] : List (String × String)) ≠
      [("Cat", "doc.txt"), ("Cat", "doc_1.txt")] := by
  refine ⟨by decide, by decide, by decide⟩

/-- C2, amended.  When within every merged group the suggested names are
pairwise distinct and none pre-exists in the target tree, the dry run and
the real run produce the identical decision sequence; the real run
additionally counts one `moved` per successful relocation while the dry run
performs zero moves. -/
theorem c2_dry_run_equivalence {cls : String → Option LLMParse}
    {namer : List String → Option String} {mv : String → Bool}
    {fs0 : List (String × String)} {files : List String}
    {d : List (String × List (String × String))}
    (hm : merge_categories namer (collectRecords cls files) = some d)
    (hnc : ∀ g ∈ d, ((g.2.map Prod.snd).Nodup ∧ ∀ m ∈ g.2, (g.1, m.2) ∉ fs0)) :
    organize_files true cls namer mv fs0 files =
      some (d.flatMap (fun g => g.2.map (fun m => (g.1, m.2))),
        ⟨files.length, 0, 0⟩) ∧
    organize_files false cls namer mv fs0 files =
      some (d.flatMap (fun g => g.2.map (fun m => (g.1, m.2))),
        ⟨files.length,
         (d.flatMap Prod.snd).countP (fun m => mv m.1),
         (d.flatMap Prod.snd).countP (fun m => !(mv m.1))⟩) := by
  constructor
  · rw [organize_dry, hm]
    simp only [Option.map_some', Option.some_inj]
    refine Prod.ext ?_ rfl
    simp only
    refine flatMap_congr ?_
    intro g hg
    refine List.map_congr_left ?_
    intro m hmem
    rw [resolveName_free ((hnc g hg).2 m hmem)]
  · have h1 := orgFold_real_noColl mv d ⟨fs0, ⟨files.length, 0, 0⟩, []⟩
      (merge_keys_nodup hm) (fun g hg => (hnc g hg).1)
      (fun g hg m hmem => (hnc g hg).2 m hmem)
    have h2 := orgFold_stats_real mv d ⟨fs0, ⟨files.length, 0, 0⟩, []⟩
    have hgoal : organize_files false cls namer mv fs0 files =
        some ((d.foldl (processGroup false mv)
            ⟨fs0, ⟨files.length, 0, 0⟩, []⟩).ds,
          (d.foldl (processGroup false mv)
            ⟨fs0, ⟨files.length, 0, 0⟩, []⟩).stats) := by
      rw [organize_files, hm]
    rw [hgoal, h1.1, h2]
    simp

/-- C2, amended, witness: two files with distinct suggested names in one
group, empty pre-existing target tree, all moves succeeding. -/
theorem c2_dry_run_equivalence_witness :
    (merge_categories (fun _ => none)
        (collectRecords (fun _ => some ⟨some "Cat", some "kw", none⟩)
          ["a.txt", "b.txt"]) =
      some [("Cat", [("a.txt", "a.txt"), ("b.txt", "b.txt")])]) ∧
    (∀ g ∈ [("Cat", [("a.txt", "a.txt"), ("b.txt", "b.txt")])],
      ((g.2.map Prod.snd).Nodup ∧
        ∀ m ∈ g.2, (g.1, m.2) ∉ ([] : List (String × String)))) ∧
    (organize_files true (fun _ => some ⟨some "Cat", some "kw", none⟩)
        (fun _ => none) (fun _ => true) [] ["a.txt", "b.txt"] =
      some ([("Cat", [("a.txt", "a.txt"), ("b.txt", "b.txt")])].flatMap
          (fun g => g.2.map (fun m => (g.1, m.2))),
        ⟨(["a.txt", "b.txt"] : List String).length, 0, 0⟩) ∧
    organize_files false (fun _ => some ⟨some "Cat", some "kw", none⟩)
        (fun _ => none) (fun _ => true) [] ["a.txt", "b.txt"] =
      some ([("Cat", [("a.txt", "a.txt"), ("b.txt", "b.txt")])].flatMap
          (fun g => g.2.map (fun m => (g.1, m.2))),
        ⟨(["a.txt", "b.txt"] : List String).length,
         (([("Cat", [("a.txt", "a.txt"), ("b.txt", "b.txt")])].flatMap
             Prod.snd).countP (fun m => (fun _ => true : String → Bool) m.1)),
         (([("Cat", [("a.txt", "a.txt"), ("b.txt", "b.txt")])].flatMap
             Prod.snd).countP
           (fun m => !((fun _ => true : String → Bool) m.1)))⟩)) :=
  ⟨by decide, by decide, c2_dry_run_equivalence (by decide) (by decide)⟩

/-- C3, counterexample.  The claim says no two resolved destinations for the
same group in one run are equal.  In a dry run nothing is moved, so the
existence check sees an unchanged target tree: two members of group `Docs`
with the same suggested name `draft.txt` both resolve to `draft.txt`. -/
theorem c3_duplicate_destinations_dry :
    organize_files true (fun _ => some ⟨some "Docs", some "k", some "draft"⟩)
        (fun _ => none) (fun _ => true) [] ["a.txt", "b.txt"] =
      some ([("Docs", "draft.txt"), ("Docs", "draft.txt")], ⟨2, 0, 0⟩) ∧
    ¬ ([("Docs", "draft.txt"), ("Docs", "draft.txt")] :
        List (String × String)).Nodup := by
  refine ⟨by decide, by decide⟩

/-- C3, amended.  In a non-dry run in which every attempted move succeeds,
all resolved destinations of one run are pairwise distinct; and the resolver
always yields a free path, either the suggested name itself or the candidate
`stem_k` with the smallest counter `k ≥ 1` that does not collide, every
smaller counter colliding. -/
theorem c3_destination_uniqueness {cls : String → Option LLMParse}
    {namer : List String → Option String} {mv : String → Bool}
    {fs0 : List (String × String)} {files : List String}
    {ds : List (String × String)} {s : Stats}
    (hmv : ∀ f, mv f = true)
    (h : organize_files false cls namer mv fs0 files = some (ds, s)) :
    ds.Nodup ∧
    (∀ (fs : List (String × String)) (folder name : String),
      (folder, resolveName fs folder name) ∉ fs ∧
      (resolveName fs folder name = name ∨
        ((folder, name) ∈ fs ∧ ∃ k, 1 ≤ k ∧
          resolveName fs folder name =
            mkCand (splitext name).1 (splitext name).2 k ∧
          (folder, mkCand (splitext name).1 (splitext name).2 k) ∉ fs ∧
          ∀ i, 1 ≤ i → i < k →
            (folder, mkCand (splitext name).1 (splitext name).2 i) ∈ fs))) :=
  ⟨organize_real_nodup hmv h,
   fun fs folder name => resolveName_spec fs folder name⟩

/-- C3, amended, witness: the `draft.txt` collision scenario in a real run —
the second member resolves to `draft_1.txt` and the decisions are
duplicate-free. -/
theorem c3_destination_uniqueness_witness :
    (organize_files false (fun _ => some ⟨some "Docs", some "k", some "draft"⟩)
        (fun _ => none) (fun _ => true) [] ["a.txt", "b.txt"] =
      some ([("Docs", "draft.txt"), ("Docs", "draft_1.txt")], ⟨2, 2, 0⟩)) ∧
    (([("Docs", "draft.txt"), ("Docs", "draft_1.txt")] :
        List (String × String)).Nodup ∧
      (∀ (fs : List (String × String)) (folder name : String),
        (folder, resolveName fs folder name) ∉ fs ∧
        (resolveName fs folder name = name ∨
          ((folder, name) ∈ fs ∧ ∃ k, 1 ≤ k ∧
            resolveName fs folder name =
              mkCand (splitext name).1 (splitext name).2 k ∧
            (folder, mkCand (splitext name).1 (splitext name).2 k) ∉ fs ∧
            ∀ i, 1 ≤ i → i < k →
              (folder, mkCand (splitext name).1 (splitext name).2 i) ∈ fs)))) :=
  ⟨by decide,
   @c3_destination_uniqueness
     (fun _ => some ⟨some "Docs", some "k", some "draft"⟩) (fun _ => none)
     (fun _ => true) [] ["a.txt", "b.txt"]
     [("Docs", "draft.txt"), ("Docs", "draft_1.txt")] ⟨2, 2, 0⟩
     (fun _ => rfl) (by decide)⟩

/-- C4.  After a successful consolidation the clusters partition the raw
categories — their concatenation is duplicate-free and holds exactly the
profile keys — and the merged groups' member lists hold every
ClassificationRecord exactly once (a permutation of the records'
`(path, suggestedName)` pairs). -/
theorem c4_partition {fd : List FileRec} {namer : List String → Option String}
    {cs : List (List String)} {d : List (String × List (String × String))}
    (hcs : buildClusters (buildProfiles fd) = some cs)
    (hd : merge_categories namer fd = some d) :
    (cs.flatten.Nodup ∧
      (∀ x, x ∈ cs.flatten ↔ x ∈ (buildProfiles fd).map Prod.fst)) ∧
    List.Perm (d.flatMap Prod.snd) (fd.map (fun r => (r.path, r.newName))) :=
  ⟨buildClusters_partition (buildProfiles_keys_nodup fd) hcs,
   merge_members_perm hd⟩

/-- C4, witness: two records in two dissimilar categories form two singleton
clusters; each record appears in exactly one group. -/
theorem c4_partition_witness :
    (buildClusters (buildProfiles
        ([⟨"a.txt", "DocsW", "n1.txt", ["w1"]⟩,
          ⟨"b.txt", "MediaW", "n2.txt", ["w2"]⟩] : List FileRec)) =
      some [["DocsW"], ["MediaW"]]) ∧
    (merge_categories (fun _ => none)
        ([⟨"a.txt", "DocsW", "n1.txt", ["w1"]⟩,
          ⟨"b.txt", "MediaW", "n2.txt", ["w2"]⟩] : List FileRec) =
      some [("DocsW", [("a.txt", "n1.txt")]), ("MediaW", [("b.txt", "n2.txt")])]) ∧
    (((([["DocsW"], ["MediaW"]] : List (List String)).flatten.Nodup ∧
      (∀ x, x ∈ ([["DocsW"], ["MediaW"]] : List (List String)).flatten ↔
        x ∈ (buildProfiles
          ([⟨"a.txt", "DocsW", "n1.txt", ["w1"]⟩,
            ⟨"b.txt", "MediaW", "n2.txt", ["w2"]⟩] : List FileRec)).map Prod.fst))) ∧
    List.Perm (([("DocsW", [("a.txt", "n1.txt")]),
        ("MediaW", [("b.txt", "n2.txt")])] :
          List (String × List (String × String))).flatMap Prod.snd)
      (([⟨"a.txt", "DocsW", "n1.txt", ["w1"]⟩,
         ⟨"b.txt", "MediaW", "n2.txt", ["w2"]⟩] : List FileRec).map
        (fun r => (r.path, r.newName)))) :=
  ⟨by decide, by decide,
   @c4_partition
     ([⟨"a.txt", "DocsW", "n1.txt", ["w1"]⟩,
       ⟨"b.txt", "MediaW", "n2.txt", ["w2"]⟩] : List FileRec)
     (fun _ => none) [["DocsW"], ["MediaW"]]
     [("DocsW", [("a.txt", "n1.txt")]), ("MediaW", [("b.txt", "n2.txt")])]
     (by decide) (by decide)⟩

/-- C5, counterexample.  The claim describes the grouper as repeating the
seed-neighborhood step until no unprocessed categories remain.  On two
distinct categories with empty keyword sets the code instead raises a
`ZeroDivisionError` and produces no clusters at all, while the spec's
procedure (similarity 0 on an empty union) yields two singleton clusters. -/
theorem c5_clustering_fault :
    buildClusters [("GraphicsX", (∅ : Finset String)), ("AudioX", ∅)] = none ∧
    specClusters [("GraphicsX", (∅ : Finset String)), ("AudioX", ∅)] =
      [{"GraphicsX"}, {"AudioX"}] :=
  ⟨by decide, by decide⟩

/-- C5, amended.  Whenever the consolidation completes without the division
fault, the clusters are exactly those of the spec's single-pass
seed-neighborhood procedure: in first-seen order, the next unprocessed
category `C` yields the cluster `{C} ∪ {D unprocessed, sim(C,D) > 0.30}`,
whose members are all marked processed. -/
theorem c5_seed_neighborhood_clustering
    {profiles : List (String × Finset String)} {cs : List (List String)}
    (h : buildClusters profiles = some cs) :
    specClusters profiles = cs.map List.toFinset :=
  buildClusters_spec h

/-- C5, amended, witness: Scenario A of the spec — keyword profiles
`{3d, render, character}` and `{3d, render, game}` have similarity
`2/4 = 0.5 > 0.30` and merge into one cluster. -/
theorem c5_seed_neighborhood_clustering_witness :
    (buildClusters
        [("ThreeD", ({"3d", "render", "character"} : Finset String)),
         ("GameArt", {"3d", "render", "game"})] =
      some [["ThreeD", "GameArt"]]) ∧
    specClusters
        [("ThreeD", ({"3d", "render", "character"} : Finset String)),
         ("GameArt", {"3d", "render", "game"})] =
      ([["ThreeD", "GameArt"]] : List (List String)).map List.toFinset :=
  ⟨by decide,
   @c5_seed_neighborhood_clustering
     [("ThreeD", ({"3d", "render", "character"} : Finset String)),
      ("GameArt", {"3d", "render", "game"})]
     [["ThreeD", "GameArt"]] (by decide)⟩

/-- C6.  On a failed classification call the per-file analysis returns
`("Misc", original filename, ∅)` and record collection continues over the
whole batch.  The run as a whole, however, can still abort because of the
division fault of C1: a failing file contributes the profile `(Misc, ∅)`,
and if another category also has an empty keyword set, `merge_categories`
raises and `organize_files` dies — contradicting the claim's "the failure
never aborts the run". -/
theorem c6_classification_failure_fallback :
    (∀ f, analyze_filename f none = ("Misc", f, [])) ∧
    (∀ (cls : String → Option LLMParse) (files : List String),
      (collectRecords cls files).length = files.length) ∧
    organize_files false
        (fun f => if f = "fail.bin" then none
          else some ⟨some "Docs", none, some "x"⟩)
        (fun _ => none) (fun _ => true) [] ["fail.bin", "good.bin"] = none := by
  refine ⟨fun f => rfl, fun cls files => by simp [collectRecords], by decide⟩

/-- C7, counterexample.  The claim says `errors` equals move failures plus
recovered classification failures.  Here the single file's classification
fails (one recovered classification failure), its move succeeds (zero move
failures), yet the run reports `errors = 0`, not `0 + 1`: the code never
increments `errors` for classification failures. -/
theorem c7_errors_exclude_classification_failures :
    (∀ f ∈ (["doc.txt"] : List String),
      (fun _ => (none : Option LLMParse)) f = none) ∧
    organize_files false (fun _ => none) (fun _ => none) (fun _ => true) []
        ["doc.txt"] =
      some ([("Misc", "doc.txt")], ⟨1, 1, 0⟩) ∧
    (⟨1, 1, 0⟩ : Stats).errors ≠ 0 + 1 :=
  ⟨by decide, by decide, by decide⟩

/-- C7, amended.  `processed` equals the number of discovered files;
`moved` and `errors` are both `0` in a dry run; in a real run `moved`
counts the successful relocations and `errors` counts exactly the move
failures (classification failures are recovered without touching
`errors`). -/
theorem c7_stats_contract {dryRun : Bool} {cls : String → Option LLMParse}
    {namer : List String → Option String} {mv : String → Bool}
    {fs0 : List (String × String)} {files : List String}
    {ds : List (String × String)} {s : Stats}
    (h : organize_files dryRun cls namer mv fs0 files = some (ds, s)) :
    s.processed = files.length ∧
    (dryRun = true → s.moved = 0 ∧ s.errors = 0) ∧
    (dryRun = false →
      ∀ d, merge_categories namer (collectRecords cls files) = some d →
        s.moved = (d.flatMap Prod.snd).countP (fun m => mv m.1) ∧
        s.errors = (d.flatMap Prod.snd).countP (fun m => !(mv m.1))) :=
  organize_stats h

/-- C7, amended, witness: one file, failed classification, failed move —
`processed = 1`, `moved = 0`, `errors = 1`. -/
theorem c7_stats_contract_witness :
    (organize_files false (fun _ => none) (fun _ => none) (fun _ => false) []
        ["doc.txt"] =
      some ([("Misc", "doc.txt")], ⟨1, 0, 1⟩)) ∧
    ((⟨1, 0, 1⟩ : Stats).processed = (["doc.txt"] : List String).length ∧
      (false = true → (⟨1, 0, 1⟩ : Stats).moved = 0 ∧
        (⟨1, 0, 1⟩ : Stats).errors = 0) ∧
      (false = false →
        ∀ d, merge_categories (fun _ => none)
            (collectRecords (fun _ => none) ["doc.txt"]) = some d →
          (⟨1, 0, 1⟩ : Stats).moved =
            (d.flatMap Prod.snd).countP
              (fun m => (fun _ => false : String → Bool) m.1) ∧
          (⟨1, 0, 1⟩ : Stats).errors =
            (d.flatMap Prod.snd).countP
              (fun m => !((fun _ => false : String → Bool) m.1)))) :=
  ⟨by decide,
   @c7_stats_contract false (fun _ => none) (fun _ => none) (fun _ => false)
     [] ["doc.txt"] [("Misc", "doc.txt")] ⟨1, 0, 1⟩ (by decide)⟩

/-- C8.  For a cluster with more than one member, a failed naming call
falls back deterministically to the cluster's first member, and the
function returns normally. -/
theorem c8_naming_fallback (namer : List String → Option String)
    (cats : List String) (hlen : 1 < cats.length)
    (hfail : namer cats = none) :
    get_merged_category_name namer cats = cats.headD "" := by
  rw [get_merged_category_name, if_neg (by omega), hfail]

/-- C8, witness: a two-member cluster whose naming call fails is named
after its first member. -/
theorem c8_naming_fallback_witness :
    1 < (["CatX", "CatY"] : List String).length ∧
    get_merged_category_name (fun _ => none) ["CatX", "CatY"] =
      (["CatX", "CatY"] : List String).headD "" :=
  ⟨by decide,
   c8_naming_fallback (fun _ => none) ["CatX", "CatY"] (by decide) rfl⟩

/-- C9.  Two-run determinism of the grouper: the clusters depend only on
the first-seen-ordered category/keyword profiles, so two record lists with
the same profiles — in particular the same list twice — yield identical
clusters. -/
theorem c9_grouper_determinism (fd1 fd2 : List FileRec)
    (h : buildProfiles fd1 = buildProfiles fd2) :
    buildClusters (buildProfiles fd1) = buildClusters (buildProfiles fd2) := by
  rw [h]

/-- C9, witness: two different record lists with identical keyword
profiles cluster identically. -/
theorem c9_grouper_determinism_witness :
    (buildProfiles ([⟨"a", "CatR", "n1", ["k", "k"]⟩] : List FileRec) =
      buildProfiles ([⟨"b", "CatR", "n2", ["k"]⟩] : List FileRec)) ∧
    buildClusters
        (buildProfiles ([⟨"a", "CatR", "n1", ["k", "k"]⟩] : List FileRec)) =
      buildClusters
        (buildProfiles ([⟨"b", "CatR", "n2", ["k"]⟩] : List FileRec)) :=
  ⟨by decide, c9_grouper_determinism _ _ (by decide)⟩

/-- C10.  Merged groups are keyed by display name: the dictionary's keys
are duplicate-free and are exactly the display names of the clusters, each
name's member list is the concatenation of the member files of every
cluster bearing that name, and the number of groups is at most the number
of clusters (strictly smaller when two clusters share a name, as the
witness shows). -/
theorem c10_groups_keyed_by_name {namer : List String → Option String}
    {fd : List FileRec} {d : List (String × List (String × String))}
    (h : merge_categories namer fd = some d) :
    ∃ cs, buildClusters (buildProfiles fd) = some cs ∧
      (d.map Prod.fst).Nodup ∧
      (∀ k, k ∈ d.map Prod.fst ↔
        ∃ c ∈ cs, get_merged_category_name namer c = k) ∧
      (∀ k, dictGet d k =
        (cs.filter
            (fun c => decide (get_merged_category_name namer c = k))).flatMap
          (fun c => c.flatMap (collectMembers fd))) ∧
      d.length ≤ cs.length := by
  rw [merge_eq_groupDict] at h
  obtain ⟨cs, hcs, rfl⟩ := Option.map_eq_some'.mp h
  refine ⟨cs, hcs, dictFold_keys_nodup namer fd cs [] (by simp), ?_, ?_, ?_⟩
  · intro k
    have h1 := dictFold_keys_mem namer fd cs [] k
    simpa [groupDict] using h1
  · intro k
    have h1 := dictFold_get namer fd cs [] k
    simpa [groupDict, dictGet] using h1
  · have h1 := dictFold_length namer fd cs []
    simpa [groupDict] using h1

/-- C10, witness: two clusters whose naming calls both return `Zgrp` are
combined into one merged group — one group from two clusters. -/
theorem c10_groups_keyed_by_name_witness :
    (merge_categories (fun _ => some "Zgrp")
        ([⟨"f1", "CatA", "n1", ["k1", "k2"]⟩,
          ⟨"f2", "CatB", "n2", ["k1", "k2", "k3"]⟩,
          ⟨"f3", "CatC", "n3", ["m1", "m2"]⟩,
          ⟨"f4", "CatD", "n4", ["m1", "m2", "m3"]⟩] : List FileRec) =
      some [("Zgrp",
        [("f1", "n1"), ("f2", "n2"), ("f3", "n3"), ("f4", "n4")])]) ∧
    (buildClusters (buildProfiles
        ([⟨"f1", "CatA", "n1", ["k1", "k2"]⟩,
          ⟨"f2", "CatB", "n2", ["k1", "k2", "k3"]⟩,
          ⟨"f3", "CatC", "n3", ["m1", "m2"]⟩,
          ⟨"f4", "CatD", "n4", ["m1", "m2", "m3"]⟩] : List FileRec)) =
      some [["CatA", "CatB"], ["CatC", "CatD"]]) ∧
    (([("Zgrp",
        [("f1", "n1"), ("f2", "n2"), ("f3", "n3"), ("f4", "n4")])] :
          List (String × List (String × String))).length <
      ([["CatA", "CatB"], ["CatC", "CatD"]] : List (List String)).length) ∧
    (∃ cs, buildClusters (buildProfiles
        ([⟨"f1", "CatA", "n1", ["k1", "k2"]⟩,
          ⟨"f2", "CatB", "n2", ["k1", "k2", "k3"]⟩,
          ⟨"f3", "CatC", "n3", ["m1", "m2"]⟩,
          ⟨"f4", "CatD", "n4", ["m1", "m2", "m3"]⟩] : List FileRec)) = some cs ∧
      (([("Zgrp",
          [("f1", "n1"), ("f2", "n2"), ("f3", "n3"), ("f4", "n4")])] :
            List (String × List (String × String))).map Prod.fst).Nodup ∧
      (∀ k, k ∈ ([("Zgrp",
          [("f1", "n1"), ("f2", "n2"), ("f3", "n3"), ("f4", "n4")])] :
            List (String × List (String × String))).map Prod.fst ↔
        ∃ c ∈ cs, get_merged_category_name (fun _ => some "Zgrp") c = k) ∧
      (∀ k, dictGet ([("Zgrp",
          [("f1", "n1"), ("f2", "n2"), ("f3", "n3"), ("f4", "n4")])] :
            List (String × List (String × String))) k =
        (cs.filter (fun c =>
            decide (get_merged_category_name (fun _ => some "Zgrp") c = k))).flatMap
          (fun c => c.flatMap (collectMembers
            ([⟨"f1", "CatA", "n1", ["k1", "k2"]⟩,
              ⟨"f2", "CatB", "n2", ["k1", "k2", "k3"]⟩,
              ⟨"f3", "CatC", "n3", ["m1", "m2"]⟩,
              ⟨"f4", "CatD", "n4", ["m1", "m2", "m3"]⟩] : List FileRec)))) ∧
      ([("Zgrp",
          [("f1", "n1"), ("f2", "n2"), ("f3", "n3"), ("f4", "n4")])] :
            List (String × List (String × String))).length ≤ cs.length) :=
  ⟨by decide, by decide, by decide,
   @c10_groups_keyed_by_name (fun _ => some "Zgrp")
     ([⟨"f1", "CatA", "n1", ["k1", "k2"]⟩,
       ⟨"f2", "CatB", "n2", ["k1", "k2", "k3"]⟩,
       ⟨"f3", "CatC", "n3", ["m1", "m2"]⟩,
       ⟨"f4", "CatD", "n4", ["m1", "m2", "m3"]⟩] : List FileRec)
     [("Zgrp", [("f1", "n1"), ("f2", "n2"), ("f3", "n3"), ("f4", "n4")])]
     (by decide)⟩

end FileOrganizer
